import Mathlib

/-!
Verification of the calendar skill's interval algebra and natural-language
parsing core, shallowly embedded from the TypeScript sources
(`src/client/calendar-client.ts`, `src/utils/date-utils.ts`,
`src/utils/availability-helper.ts`, `src/utils/natural-language.ts`).

Timestamps are modelled as `Int` milliseconds since the Unix epoch (the value
of JavaScript `Date.prototype.getTime`).  The host's local timezone is
modelled by an explicit offset `off` in milliseconds (local wall-clock time of
the instant `t` is `t + off`); day-saving-time transitions are outside the
model.  Fractional hours are modelled as exact rationals.
-/

namespace GCal

/-- Milliseconds in one civil day. -/
def dayMs : Int := 86400000

/-- Embeds `getDurationMinutes` (date-utils): `Math.round((end - start)/60000)`.
`Math.round x = ⌊x + 1/2⌋`, so on exact millisecond inputs this is
`⌊(2*(e-s) + 60000) / 120000⌋` using flooring division. -/
def getDurationMinutes (s e : Int) : Int :=
  Int.fdiv (2 * (e - s) + 60000) 120000

/-- Embeds `getStartOfDay` (date-utils): `d.setHours(0,0,0,0)` in host local
time, i.e. the most recent instant whose local wall-clock time is midnight. -/
def getStartOfDay (off t : Int) : Int :=
  t - (t + off) % dayMs

/-- Embeds the `TimeSlot` record of `src/client/types.ts`:
`{start: Date, end: Date, duration: minutes}`. -/
structure TimeSlot where
  start : Int
  «end» : Int
  duration : Int
deriving DecidableEq, Repr

/-- Embeds `doRangesOverlap` (date-utils):
`start1 < end2 && end1 > start2`. -/
def doRangesOverlap (start1 end1 start2 end2 : Int) : Bool :=
  decide (start1 < end2) && decide (end1 > start2)

/-- The loop body of `CalendarClient.findGaps` (calendar-client.ts:331-355):
walks the busy slots advancing the cursor `current`, emitting a gap before a
busy slot whenever `busy.start > current` and the gap lasts at least
`minDuration`; after the last busy slot the final gap `[current, end]` is
emitted under the same rule when `current < end`. -/
def gapsLoop (minDuration endW : Int) : List TimeSlot → Int → List TimeSlot
  | [], current =>
    if current < endW ∧ minDuration ≤ getDurationMinutes current endW then
      [⟨current, endW, getDurationMinutes current endW⟩]
    else []
  | b :: rest, current =>
    (if current < b.start ∧ minDuration ≤ getDurationMinutes current b.start then
      [⟨current, b.start, getDurationMinutes current b.start⟩]
    else []) ++
    gapsLoop minDuration endW rest (if current < b.«end» then b.«end» else current)

/-- Embeds `CalendarClient.findGaps` (calendar-client.ts:321-358).  Note the
cursor is initialised to `getStartOfDay(start)`, not to `start` itself. -/
def findGaps (off startW endW : Int) (busySlots : List TimeSlot) (minDuration : Int) :
    List TimeSlot :=
  gapsLoop minDuration endW busySlots (getStartOfDay off startW)

/-- Modelled from the spec (§4.6 GapFinder), for comparison with `findGaps`:
walk the busy intervals tracking a cursor; for each busy interval whose start
is after the cursor emit the candidate gap `[cursor, busy.start]` when its
duration is at least `minDuration`; advance the cursor to
`max(cursor, busy.end)`; after the last busy interval emit the final gap
`[cursor, windowEnd]` under the same rule. -/
def gapWalkSpec (minDuration endW : Int) : List TimeSlot → Int → List TimeSlot
  | [], cursor =>
    if endW > cursor ∧ minDuration ≤ getDurationMinutes cursor endW then
      [⟨cursor, endW, getDurationMinutes cursor endW⟩]
    else []
  | b :: rest, cursor =>
    (if b.start > cursor ∧ minDuration ≤ getDurationMinutes cursor b.start then
      [⟨cursor, b.start, getDurationMinutes cursor b.start⟩]
    else []) ++
    gapWalkSpec minDuration endW rest (max cursor b.«end»)

theorem gapsLoop_eq_gapWalkSpec (minD endW : Int) (busy : List TimeSlot) (cursor : Int) :
    gapsLoop minD endW busy cursor = gapWalkSpec minD endW busy cursor := by
  induction busy generalizing cursor with
  | nil =>
    simp only [gapsLoop, gapWalkSpec]
  | cons b rest ih =>
    simp only [gapsLoop, gapWalkSpec]
    have hmax : (if cursor < b.«end» then b.«end» else cursor) = max cursor b.«end» := by
      rcases le_or_lt b.«end» cursor with h | h
      · simp [not_lt.mpr h, max_eq_left h]
      · simp [h, max_eq_right (le_of_lt h)]
    rw [hmax, ih]

theorem getDurationMinutes_nonneg {s e : Int} (h : s < e) : 0 ≤ getDurationMinutes s e := by
  have h1 : (0 : Int) ≤ 2 * (e - s) + 60000 := by omega
  exact Int.fdiv_nonneg h1 (by norm_num)

/-- Every gap the loop emits starts at or after the cursor and is separated
from every busy slot of a start-sorted busy list. -/
theorem gapsLoop_sep (minD endW : Int) :
    ∀ (busy : List TimeSlot) (current : Int),
      busy.Pairwise (fun a b => a.start ≤ b.start) →
      ∀ g ∈ gapsLoop minD endW busy current,
        current ≤ g.start ∧ ∀ b ∈ busy, g.«end» ≤ b.start ∨ b.«end» ≤ g.start := by
  intro busy
  induction busy with
  | nil =>
    intro current _ g hg
    simp only [gapsLoop] at hg
    split at hg
    · simp only [List.mem_singleton] at hg
      subst hg
      exact ⟨le_refl _, by simp⟩
    · simp at hg
  | cons b rest ih =>
    intro current hpw g hg
    rw [List.pairwise_cons] at hpw
    obtain ⟨hb, htail⟩ := hpw
    simp only [gapsLoop, List.mem_append] at hg
    rcases hg with hg | hg
    · split at hg
      case isTrue hc =>
        simp only [List.mem_singleton] at hg
        subst hg
        refine ⟨le_refl _, ?_⟩
        intro b' hb'
        rcases List.mem_cons.mp hb' with rfl | hmem
        · exact Or.inl (le_refl _)
        · exact Or.inl (hb _ hmem)
      case isFalse => simp at hg
    · have hcur : current ≤ (if current < b.«end» then b.«end» else current) := by
        split <;> omega
      have hend : b.«end» ≤ (if current < b.«end» then b.«end» else current) := by
        split <;> omega
      obtain ⟨h1, h2⟩ := ih _ htail g hg
      refine ⟨le_trans hcur h1, ?_⟩
      intro b' hb'
      rcases List.mem_cons.mp hb' with rfl | hmem
      · exact Or.inr (le_trans hend h1)
      · exact h2 _ hmem

/-- With a non-positive minimum duration, every instant of `[current, endW)`
lies either in an emitted gap or in one of the busy slots. -/
theorem gapsLoop_covers (minD endW : Int) (hd : minD ≤ 0) :
    ∀ (busy : List TimeSlot) (current t : Int), current ≤ t → t < endW →
      (∃ g ∈ gapsLoop minD endW busy current, g.start ≤ t ∧ t < g.«end») ∨
      (∃ b ∈ busy, b.start ≤ t ∧ t < b.«end») := by
  intro busy
  induction busy with
  | nil =>
    intro current t hct hte
    left
    have hce : current < endW := lt_of_le_of_lt hct hte
    have hdur : minD ≤ getDurationMinutes current endW :=
      le_trans hd (getDurationMinutes_nonneg hce)
    refine ⟨⟨current, endW, getDurationMinutes current endW⟩, ?_, hct, hte⟩
    simp [gapsLoop, hce, hdur]
  | cons b rest ih =>
    intro current t hct hte
    rcases lt_or_le t b.start with hts | hts
    · left
      have hcs : current < b.start := lt_of_le_of_lt hct hts
      have hdur : minD ≤ getDurationMinutes current b.start :=
        le_trans hd (getDurationMinutes_nonneg hcs)
      refine ⟨⟨current, b.start, getDurationMinutes current b.start⟩, ?_, hct, hts⟩
      simp [gapsLoop, hcs, hdur]
    · rcases lt_or_le t b.«end» with hlt | hge
      · exact Or.inr ⟨b, List.mem_cons_self _ _, hts, hlt⟩
      · have hc' : (if current < b.«end» then b.«end» else current) ≤ t := by
          split <;> omega
        rcases ih _ t hc' hte with ⟨g, hg, hgt⟩ | ⟨b', hb', hbt⟩
        · exact Or.inl ⟨g, by simp [gapsLoop, List.mem_append]; right; exact hg, hgt⟩
        · exact Or.inr ⟨b', List.mem_cons_of_mem _ hb', hbt⟩

/-- C1 (counterexample): the claim's walk starts the cursor at `windowStart`
and predicts `findGaps(08:00, 18:00, [{9:00-10:00},{14:00-15:00}], 60)
= [{08:00-09:00 (60m)}, {10:00-14:00 (240m)}, {15:00-18:00 (180m)}]` and,
with `minDuration = 300`, `[{10:00-14:00}]`.  On a UTC host (offset 0), with
the window on the epoch day, the code returns neither: the cursor starts at
local midnight, so the first gap is `{00:00-09:00 (540m)}`, and with
`minDuration = 300` only that midnight gap survives. -/
theorem C1_counterexample :
    ¬ (findGaps 0 (8 * 3600000) (18 * 3600000)
        [⟨9 * 3600000, 10 * 3600000, 60⟩, ⟨14 * 3600000, 15 * 3600000, 60⟩] 60 =
        [⟨8 * 3600000, 9 * 3600000, 60⟩, ⟨10 * 3600000, 14 * 3600000, 240⟩,
         ⟨15 * 3600000, 18 * 3600000, 180⟩] ∧
       findGaps 0 (8 * 3600000) (18 * 3600000)
        [⟨9 * 3600000, 10 * 3600000, 60⟩, ⟨14 * 3600000, 15 * 3600000, 60⟩] 300 =
        [⟨10 * 3600000, 14 * 3600000, 240⟩]) := by
  decide

/-- C1 (amended): `findGaps` walks the busy intervals with a cursor
initialised to the local *start of day* of `windowStart` (not `windowStart`
itself), emits the candidate gap `[cursor, busy.start]` whenever the busy
interval's start is after the cursor and the gap lasts at least
`minDuration`, advances the cursor to `max(cursor, busy.end)`, and after the
last busy interval emits the final gap `[cursor, windowEnd]` under the same
rule; on a UTC host the example
`findGaps(08:00, 18:00, [{9:00-10:00},{14:00-15:00}], 60)` returns exactly
`[{00:00-09:00 (540m)}, {10:00-14:00 (240m)}, {15:00-18:00 (180m)}]`, and
the same input with `minDuration = 300` yields only `[{00:00-09:00 (540m)}]`. -/
theorem C1_findGaps_cursor_walk :
    (∀ (off startW endW minD : Int) (busy : List TimeSlot),
      findGaps off startW endW busy minD =
        gapWalkSpec minD endW busy (getStartOfDay off startW)) ∧
    findGaps 0 (8 * 3600000) (18 * 3600000)
        [⟨9 * 3600000, 10 * 3600000, 60⟩, ⟨14 * 3600000, 15 * 3600000, 60⟩] 60 =
      [⟨0, 9 * 3600000, 540⟩, ⟨10 * 3600000, 14 * 3600000, 240⟩,
       ⟨15 * 3600000, 18 * 3600000, 180⟩] ∧
    findGaps 0 (8 * 3600000) (18 * 3600000)
        [⟨9 * 3600000, 10 * 3600000, 60⟩, ⟨14 * 3600000, 15 * 3600000, 60⟩] 300 =
      [⟨0, 9 * 3600000, 540⟩] := by
  refine ⟨?_, by decide, by decide⟩
  intro off startW endW minD busy
  exact gapsLoop_eq_gapWalkSpec minD endW busy (getStartOfDay off startW)

/-- C2 (counterexample): coverage fails for large minimum durations.  With the
empty busy set, window `[0, 100min)` and `minDuration = 200`, `findGaps`
filters out the only candidate gap, so the point `0` of the window is covered
by neither a gap nor a busy interval. -/
theorem C2_counterexample :
    ¬ (∀ t : Int, 0 ≤ t → t < 6000000 →
        (∃ g ∈ findGaps 0 0 6000000 ([] : List TimeSlot) 200,
          g.start ≤ t ∧ t < g.«end») ∨
        (∃ b ∈ ([] : List TimeSlot), b.start ≤ t ∧ t < b.«end»)) := by
  intro h
  rcases h 0 (by norm_num) (by norm_num) with ⟨g, hg, _⟩ | ⟨b, hb, _⟩
  · have : findGaps 0 0 6000000 ([] : List TimeSlot) 200 = [] := by decide
    rw [this] at hg
    exact absurd hg (List.not_mem_nil g)
  · exact absurd hb (List.not_mem_nil b)

/-- C2 (amended): for every window `[W0,W1]` and every merged busy set `B`
(well-formed, sorted and pairwise separated), no gap returned by `findGaps`
overlaps any busy interval of `B` — for every minimum duration; and whenever
`minDuration ≤ 0` (so that no candidate gap is filtered away), the gaps
together with the busy intervals cover every instant of `[W0, W1)`. -/
theorem C2_gap_busy_partition (off W0 W1 minD : Int) (B : List TimeSlot)
    (hwf : ∀ b ∈ B, b.start ≤ b.«end»)
    (hsep : B.Pairwise (fun a b => a.«end» < b.start)) :
    (minD ≤ 0 → ∀ t : Int, W0 ≤ t → t < W1 →
      (∃ g ∈ findGaps off W0 W1 B minD, g.start ≤ t ∧ t < g.«end») ∨
      (∃ b ∈ B, b.start ≤ t ∧ t < b.«end»)) ∧
    (∀ g ∈ findGaps off W0 W1 B minD, ∀ b ∈ B,
      doRangesOverlap g.start g.«end» b.start b.«end» = false) := by
  have hsorted : B.Pairwise (fun a b => a.start ≤ b.start) := by
    refine List.Pairwise.imp_of_mem ?_ hsep
    intro a b ha _ hlt
    exact le_trans (hwf a ha) (le_of_lt hlt)
  constructor
  · intro hd t h0 h1
    have hsod : getStartOfDay off W0 ≤ W0 := by
      have h := Int.emod_nonneg (W0 + off) (by norm_num : (86400000 : Int) ≠ 0)
      simp only [getStartOfDay, dayMs]
      omega
    exact gapsLoop_covers minD W1 hd B (getStartOfDay off W0) t (le_trans hsod h0) h1
  · intro g hg b hb
    obtain ⟨_, h2⟩ := gapsLoop_sep minD W1 B (getStartOfDay off W0) hsorted g hg
    rcases h2 b hb with h | h <;>
      simp [doRangesOverlap, decide_eq_false_iff_not, not_lt] <;> omega

/-- Witness for C2 at a concrete input: window `[0, 2h)`, one busy slot
`[1:00, 1:30)`, `minDuration = 0`. -/
theorem C2_gap_busy_partition_witness :
    ((∀ b ∈ [(⟨3600000, 5400000, 30⟩ : TimeSlot)], b.start ≤ b.«end») ∧
      List.Pairwise (fun a b : TimeSlot => a.«end» < b.start)
        [(⟨3600000, 5400000, 30⟩ : TimeSlot)]) ∧
    ((0 : Int) ≤ 0 → ∀ t : Int, 0 ≤ t → t < 7200000 →
      (∃ g ∈ findGaps 0 0 7200000 [(⟨3600000, 5400000, 30⟩ : TimeSlot)] 0,
        g.start ≤ t ∧ t < g.«end») ∨
      (∃ b ∈ [(⟨3600000, 5400000, 30⟩ : TimeSlot)], b.start ≤ t ∧ t < b.«end»)) ∧
    (∀ g ∈ findGaps 0 0 7200000 [(⟨3600000, 5400000, 30⟩ : TimeSlot)] 0,
      ∀ b ∈ [(⟨3600000, 5400000, 30⟩ : TimeSlot)],
        doRangesOverlap g.start g.«end» b.start b.«end» = false) :=
  ⟨⟨by decide, by decide⟩,
   C2_gap_busy_partition 0 0 7200000 0 [⟨3600000, 5400000, 30⟩]
     (by decide) (by decide)⟩

/-! ### Interval merging

`mergeTimeSlots` (calendar-client.ts:291-316, availability-helper mirror at
part_010:721-742) sorts a copy of the slot array by start time (JavaScript's
stable sort) and then folds left, extending the last kept slot's `end` (and
recomputing its `duration`) whenever the next slot starts at or before the
last kept slot's current end, otherwise appending the next slot unchanged.
The stable sort is modelled by insertion sort, which computes the same
permutation. -/

def insertByStart (s : TimeSlot) : List TimeSlot → List TimeSlot
  | [] => [s]
  | t :: ts => if s.start < t.start then s :: t :: ts else t :: insertByStart s ts

/-- Stable sort by `start`, modelling `[...slots].sort((a,b) => a.start - b.start)`. -/
def sortByStart (slots : List TimeSlot) : List TimeSlot :=
  slots.foldl (fun acc s => insertByStart s acc) []

/-- The merge loop of `mergeTimeSlots`: `last` is the slot currently at the
end of the `merged` array (the only one the loop ever rewrites). -/
def mergeSorted : TimeSlot → List TimeSlot → List TimeSlot
  | last, [] => [last]
  | last, c :: rest =>
    if c.start ≤ last.«end» then
      if last.«end» < c.«end» then
        mergeSorted ⟨last.start, c.«end», getDurationMinutes last.start c.«end»⟩ rest
      else
        mergeSorted last rest
    else
      last :: mergeSorted c rest

/-- Embeds `mergeTimeSlots` (calendar-client.ts:291-316) as a function on
slot values. -/
def mergeTimeSlots (slots : List TimeSlot) : List TimeSlot :=
  match sortByStart slots with
  | [] => []
  | s :: rest => mergeSorted s rest

theorem mem_insertByStart (s x : TimeSlot) (l : List TimeSlot) :
    x ∈ insertByStart s l ↔ x = s ∨ x ∈ l := by
  induction l with
  | nil => simp [insertByStart]
  | cons t ts ih =>
    simp only [insertByStart]
    split
    · simp [List.mem_cons]
    · simp only [List.mem_cons, ih]
      tauto

theorem insertByStart_pairwise (s : TimeSlot) (l : List TimeSlot)
    (h : l.Pairwise (fun a b => a.start ≤ b.start)) :
    (insertByStart s l).Pairwise (fun a b => a.start ≤ b.start) := by
  induction l with
  | nil => simp [insertByStart]
  | cons t ts ih =>
    rw [List.pairwise_cons] at h
    obtain ⟨ht, hts⟩ := h
    simp only [insertByStart]
    split
    case isTrue hlt =>
      rw [List.pairwise_cons]
      refine ⟨?_, List.pairwise_cons.mpr ⟨ht, hts⟩⟩
      intro x hx
      rcases List.mem_cons.mp hx with rfl | hmem
      · exact le_of_lt hlt
      · exact le_trans (le_of_lt hlt) (ht _ hmem)
    case isFalse hge =>
      rw [List.pairwise_cons]
      refine ⟨?_, ih hts⟩
      intro x hx
      rcases (mem_insertByStart s x ts).mp hx with rfl | hmem
      · omega
      · exact ht _ hmem

theorem sortByStart_pairwise (slots : List TimeSlot) :
    (sortByStart slots).Pairwise (fun a b => a.start ≤ b.start) := by
  suffices h : ∀ (l acc : List TimeSlot),
      acc.Pairwise (fun a b => a.start ≤ b.start) →
      (l.foldl (fun a s => insertByStart s a) acc).Pairwise
        (fun a b => a.start ≤ b.start) by
    exact h slots [] (by simp)
  intro l
  induction l with
  | nil => intro acc hacc; exact hacc
  | cons s l' ih =>
    intro acc hacc
    exact ih _ (insertByStart_pairwise s acc hacc)

theorem insertByStart_of_all_le (s : TimeSlot) (l : List TimeSlot)
    (h : ∀ t ∈ l, t.start ≤ s.start) :
    insertByStart s l = l ++ [s] := by
  induction l with
  | nil => simp [insertByStart]
  | cons t ts ih =>
    have ht : t.start ≤ s.start := h t (List.mem_cons_self _ _)
    simp only [insertByStart, not_lt.mpr ht, if_neg (not_lt.mpr ht)]
    rw [ih fun x hx => h x (List.mem_cons_of_mem _ hx)]
    simp

theorem sortByStart_of_pairwise (slots : List TimeSlot)
    (h : slots.Pairwise (fun a b => a.start ≤ b.start)) :
    sortByStart slots = slots := by
  suffices hg : ∀ (l acc : List TimeSlot),
      (acc ++ l).Pairwise (fun a b => a.start ≤ b.start) →
      l.foldl (fun a s => insertByStart s a) acc = acc ++ l by
    simpa using hg slots [] (by simpa using h)
  intro l
  induction l with
  | nil => intro acc _; simp
  | cons s l' ih =>
    intro acc hacc
    have hall : ∀ t ∈ acc, t.start ≤ s.start := by
      intro t ht
      have := (List.pairwise_append.mp hacc).2.2 t ht s (List.mem_cons_self _ _)
      exact this
    simp only [List.foldl_cons]
    rw [insertByStart_of_all_le s acc hall]
    have : (acc ++ [s]) ++ l' = acc ++ s :: l' := by simp
    rw [ih (acc ++ [s]) (by rw [this]; exact hacc), this]

/-- On a start-sorted tail, the merge loop produces a list whose adjacent
slots are strictly separated and start-sorted, and whose head keeps the
original `start`. -/
theorem mergeSorted_chain :
    ∀ (l : List TimeSlot) (last : TimeSlot),
      (∀ x ∈ l, last.start ≤ x.start) →
      l.Pairwise (fun a b => a.start ≤ b.start) →
      (mergeSorted last l).Chain' (fun a b => a.«end» < b.start ∧ a.start ≤ b.start) ∧
      ∃ hd tl, mergeSorted last l = hd :: tl ∧ hd.start = last.start := by
  intro l
  induction l with
  | nil =>
    intro last _ _
    exact ⟨by simp [mergeSorted], last, [], rfl, rfl⟩
  | cons c rest ih =>
    intro last hall hpw
    rw [List.pairwise_cons] at hpw
    obtain ⟨hc, hrest⟩ := hpw
    have hlc : last.start ≤ c.start := hall c (List.mem_cons_self _ _)
    simp only [mergeSorted]
    split
    case isTrue hov =>
      split
      case isTrue hext =>
        have h1 : ∀ x ∈ rest,
            (⟨last.start, c.«end», getDurationMinutes last.start c.«end»⟩ :
              TimeSlot).start ≤ x.start := by
          intro x hx
          exact le_trans hlc (hc x hx)
        exact ih _ h1 hrest
      case isFalse =>
        exact ih last (fun x hx => le_trans hlc (hc x hx)) hrest
    case isFalse hsep =>
      obtain ⟨hchain, hd, tl, heq, hstart⟩ := ih c hc hrest
      rw [heq]
      refine ⟨?_, last, hd :: tl, rfl, rfl⟩
      rw [heq] at hchain
      exact List.chain'_cons.mpr ⟨⟨by omega, by omega⟩, hchain⟩

/-- A merge pass over an already separated list changes nothing. -/
theorem mergeSorted_of_chain :
    ∀ (l : List TimeSlot) (last : TimeSlot),
      (last :: l).Chain' (fun a b => a.«end» < b.start) →
      mergeSorted last l = last :: l := by
  intro l
  induction l with
  | nil => intro last _; rfl
  | cons c rest ih =>
    intro last hch
    rw [List.chain'_cons] at hch
    obtain ⟨hlc, hch⟩ := hch
    simp only [mergeSorted, if_neg (not_le.mpr hlc)]
    rw [ih c hch]

theorem mergeTimeSlots_chain (slots : List TimeSlot) :
    (mergeTimeSlots slots).Chain'
      (fun a b => a.«end» < b.start ∧ a.start ≤ b.start) := by
  unfold mergeTimeSlots
  rcases hs : sortByStart slots with _ | ⟨s, rest⟩
  · simp
  · have hpw := sortByStart_pairwise slots
    rw [hs, List.pairwise_cons] at hpw
    exact (mergeSorted_chain rest s hpw.1 hpw.2).1

/-- A merge pass is the identity on any separated, start-sorted slot list. -/
theorem mergeTimeSlots_of_chain (M : List TimeSlot)
    (hchain : M.Chain' (fun a b => a.«end» < b.start ∧ a.start ≤ b.start)) :
    mergeTimeSlots M = M := by
  haveI : IsTrans TimeSlot (fun a b => a.start ≤ b.start) :=
    ⟨fun a b c h1 h2 => le_trans h1 h2⟩
  have hpw : M.Pairwise (fun a b => a.start ≤ b.start) := by
    rw [← List.chain'_iff_pairwise]
    exact hchain.imp fun a b h => h.2
  have hsort : sortByStart M = M := sortByStart_of_pairwise _ hpw
  unfold mergeTimeSlots
  rw [hsort]
  rcases M with _ | ⟨s, rest⟩
  · rfl
  · exact mergeSorted_of_chain rest s (hchain.imp fun a b h => h.1)

/-- C3: merging twice gives the same result as merging once, for any list of
well-formed slots (each with `start ≤ end`). -/
theorem C3_mergeTimeSlots_idempotent (S : List TimeSlot)
    (_hwf : ∀ s ∈ S, s.start ≤ s.«end») :
    mergeTimeSlots (mergeTimeSlots S) = mergeTimeSlots S :=
  mergeTimeSlots_of_chain (mergeTimeSlots S) (mergeTimeSlots_chain S)

/-- Witness for C3 at a concrete overlapping input. -/
theorem C3_mergeTimeSlots_idempotent_witness :
    (∀ s ∈ [(⟨0, 600000, 10⟩ : TimeSlot), ⟨300000, 1200000, 15⟩],
      s.start ≤ s.«end») ∧
    mergeTimeSlots (mergeTimeSlots
        [(⟨0, 600000, 10⟩ : TimeSlot), ⟨300000, 1200000, 15⟩]) =
      mergeTimeSlots [(⟨0, 600000, 10⟩ : TimeSlot), ⟨300000, 1200000, 15⟩] :=
  ⟨by decide, C3_mergeTimeSlots_idempotent
    [⟨0, 600000, 10⟩, ⟨300000, 1200000, 15⟩] (by decide)⟩

/-! ### Object-level model of `mergeTimeSlots`

`mergeTimeSlots` receives an array of references to `TimeSlot` objects.
`[...slots]` copies the array but not the objects, and the loop assigns
`last.end = current.end; last.duration = ...`, writing through a reference
that is also an element of the caller's array.  To make such writes
observable, the input array is modelled as a heap of slot values indexed by
position; the sort permutes indices and the loop mutates the heap. -/

def hGet (heap : List TimeSlot) (i : Nat) : TimeSlot := heap.getD i ⟨0, 0, 0⟩

theorem hGet_eq (heap : List TimeSlot) (i : Nat) (h : i < heap.length) :
    hGet heap i = heap.get ⟨i, h⟩ := by
  rw [List.get_eq_getElem]
  exact List.getD_eq_getElem heap ⟨0, 0, 0⟩ h

def idxInsert (heap : List TimeSlot) (i : Nat) : List Nat → List Nat
  | [] => [i]
  | j :: js =>
    if (hGet heap i).start < (hGet heap j).start then i :: j :: js
    else j :: idxInsert heap i js

/-- The stable sort of `mergeTimeSlots` at the level of array indices. -/
def sortIdx (heap : List TimeSlot) : List Nat :=
  (List.range heap.length).foldl (fun acc i => idxInsert heap i acc) []

/-- The merge loop at the object level: `last` is the index of the slot at
the end of `merged`; extending writes through it into the heap. -/
def mergeLoopH : List TimeSlot → Nat → List Nat → List Nat → List Nat × List TimeSlot
  | heap, last, [], acc => (acc ++ [last], heap)
  | heap, last, c :: cs, acc =>
    let ls := hGet heap last
    let cu := hGet heap c
    if cu.start ≤ ls.«end» then
      if ls.«end» < cu.«end» then
        mergeLoopH
          (heap.set last ⟨ls.start, cu.«end», getDurationMinutes ls.start cu.«end»⟩)
          last cs acc
      else
        mergeLoopH heap last cs acc
    else
      mergeLoopH heap c cs (acc ++ [last])

/-- `mergeTimeSlots` at the object level: returns the merged slot values and
the final state of the caller's slot objects (by input position). -/
def mergeTimeSlotsH (heap : List TimeSlot) : List TimeSlot × List TimeSlot :=
  match sortIdx heap with
  | [] => ([], heap)
  | i :: is =>
    let r := mergeLoopH heap i is []
    (r.1.map (hGet r.2), r.2)

/-- C7 (counterexample): merging two overlapping slots rewrites the first
input object in place — after the call the caller's first slot object has
`end = 1200000` and `duration = 20` instead of its original values. -/
theorem C7_counterexample :
    (mergeTimeSlotsH [⟨0, 600000, 10⟩, ⟨300000, 1200000, 15⟩]).2 ≠
      [⟨0, 600000, 10⟩, ⟨300000, 1200000, 15⟩] := by
  decide

theorem map_start_set (heap : List TimeSlot) (i : Nat) (v : TimeSlot)
    (h : v.start = (hGet heap i).start) :
    (heap.set i v).map TimeSlot.start = heap.map TimeSlot.start := by
  induction heap generalizing i with
  | nil => rfl
  | cons hd tl ih =>
    cases i with
    | zero =>
      simp only [List.set, List.map_cons]
      rw [show v.start = hd.start from h]
    | succ n =>
      simp only [List.set, List.map_cons]
      rw [ih n h]

/-- The merge loop never writes to a slot's `start` field. -/
theorem mergeLoopH_map_start :
    ∀ (rest : List Nat) (heap : List TimeSlot) (last : Nat) (acc : List Nat),
      (mergeLoopH heap last rest acc).2.map TimeSlot.start =
        heap.map TimeSlot.start := by
  intro rest
  induction rest with
  | nil => intro heap last acc; rfl
  | cons c cs ih =>
    intro heap last acc
    simp only [mergeLoopH]
    split
    · split
      · rw [ih, map_start_set]
        rfl
      · exact ih ..
    · exact ih ..

/-- When consecutive processed slots never overlap, the merge loop performs
no write at all and just accumulates the indices in order. -/
theorem mergeLoopH_no_write :
    ∀ (rest : List Nat) (heap : List TimeSlot) (last : Nat) (acc : List Nat),
      List.Chain' (fun i j => (hGet heap i).«end» < (hGet heap j).start)
        (last :: rest) →
      mergeLoopH heap last rest acc = (acc ++ last :: rest, heap) := by
  intro rest
  induction rest with
  | nil => intro heap last acc _; rfl
  | cons c cs ih =>
    intro heap last acc hch
    rw [List.chain'_cons] at hch
    obtain ⟨hlc, hch⟩ := hch
    simp only [mergeLoopH, if_neg (not_le.mpr hlc)]
    rw [ih heap c (acc ++ [last]) hch]
    simp

theorem idxInsert_of_all_le (heap : List TimeSlot) (i : Nat) (acc : List Nat)
    (h : ∀ j ∈ acc, ¬ (hGet heap i).start < (hGet heap j).start) :
    idxInsert heap i acc = acc ++ [i] := by
  induction acc with
  | nil => rfl
  | cons j js ih =>
    simp only [idxInsert, if_neg (h j (List.mem_cons_self _ _))]
    rw [ih fun x hx => h x (List.mem_cons_of_mem _ hx)]
    rfl

/-- On a heap whose slot starts are strictly increasing, the stable index
sort returns the identity permutation. -/
theorem sortIdx_of_sorted (heap : List TimeSlot)
    (hmono : ∀ i j : Nat, i < j → j < heap.length →
      (hGet heap i).start < (hGet heap j).start) :
    sortIdx heap = List.range heap.length := by
  suffices h : ∀ m, m ≤ heap.length →
      (List.range m).foldl (fun acc i => idxInsert heap i acc) [] = List.range m by
    exact h heap.length (le_refl _)
  intro m
  induction m with
  | zero => intro _; rfl
  | succ n ih =>
    intro hle
    rw [List.range_succ, List.foldl_append, ih (by omega)]
    simp only [List.foldl_cons, List.foldl_nil]
    rw [idxInsert_of_all_le]
    intro j hj
    have hjn : j < n := List.mem_range.mp hj
    exact not_lt.mpr (le_of_lt (hmono j n hjn (by omega)))

/-- C7 (amended): the object-level merge never rewrites any input slot's
`start`, but it does rewrite `end` and `duration` of input slot objects when
slots overlap; when the input slots are well-formed and pairwise separated
(already merged), every input object is left exactly as it was. -/
theorem C7_merge_input_mutation (heap : List TimeSlot) :
    (mergeTimeSlotsH heap).2.map TimeSlot.start = heap.map TimeSlot.start ∧
    ((∀ s ∈ heap, s.start ≤ s.«end») →
      heap.Pairwise (fun a b => a.«end» < b.start) →
      (mergeTimeSlotsH heap).2 = heap) := by
  constructor
  · rcases hs : sortIdx heap with _ | ⟨i, is⟩
    · simp [mergeTimeSlotsH, hs]
    · simp only [mergeTimeSlotsH, hs]
      exact mergeLoopH_map_start is heap i []
  · intro hwf hsep
    have hidx : ∀ i j : Nat, i < j → j < heap.length →
        (hGet heap i).«end» < (hGet heap j).start := by
      intro i j hij hj
      have hi : i < heap.length := lt_trans hij hj
      have h := List.pairwise_iff_getElem.mp hsep i j hi hj hij
      rw [hGet_eq heap i hi, hGet_eq heap j hj]
      simpa using h
    have hmono : ∀ i j : Nat, i < j → j < heap.length →
        (hGet heap i).start < (hGet heap j).start := by
      intro i j hij hj
      have h1 := hidx i j hij hj
      have h2 : (hGet heap i).start ≤ (hGet heap i).«end» := by
        have hi : i < heap.length := lt_trans hij hj
        rw [hGet_eq heap i hi]
        exact hwf _ (heap.get_mem i hi)
      omega
    have hs := sortIdx_of_sorted heap hmono
    rcases hn : heap.length with _ | m
    · rcases heap with _ | ⟨a, b⟩
      · rfl
      · simp at hn
    · have hrange : sortIdx heap = 0 :: List.map Nat.succ (List.range m) := by
        rw [hs, hn, List.range_succ_eq_map]
      have hchain : List.Chain'
          (fun i j => (hGet heap i).«end» < (hGet heap j).start)
          (0 :: List.map Nat.succ (List.range m)) := by
        rw [← List.range_succ_eq_map, ← hn]
        refine List.Pairwise.chain' ?_
        refine List.Pairwise.imp_of_mem ?_ (List.pairwise_lt_range heap.length)
        intro i j _ hjmem hij
        exact hidx i j hij (List.mem_range.mp hjmem)
      simp only [mergeTimeSlotsH, hrange]
      rw [mergeLoopH_no_write (List.map Nat.succ (List.range m)) heap 0 [] hchain]

/-- Witness for C7 at an already-merged concrete input. -/
theorem C7_merge_input_mutation_witness :
    ((∀ s ∈ [(⟨0, 600000, 10⟩ : TimeSlot), ⟨1200000, 1800000, 10⟩],
        s.start ≤ s.«end») ∧
      List.Pairwise (fun a b : TimeSlot => a.«end» < b.start)
        [(⟨0, 600000, 10⟩ : TimeSlot), ⟨1200000, 1800000, 10⟩]) ∧
    (mergeTimeSlotsH [(⟨0, 600000, 10⟩ : TimeSlot), ⟨1200000, 1800000, 10⟩]).2 =
      [(⟨0, 600000, 10⟩ : TimeSlot), ⟨1200000, 1800000, 10⟩] :=
  ⟨⟨by decide, by decide⟩,
   (C7_merge_input_mutation [⟨0, 600000, 10⟩, ⟨1200000, 1800000, 10⟩]).2
     (by decide) (by decide)⟩

/-! ### String scanning primitives

The natural-language helpers of `date-utils.ts` use a handful of simple
regular expressions.  Their matching semantics (leftmost match, greedy
quantifiers over single character classes, case-insensitive flag) are
embedded as direct scanners over character lists. -/

/-- JavaScript's `\s` on the ASCII range (space, tab, newline, carriage
return, vertical tab, form feed). -/
def isSpaceJS (c : Char) : Bool :=
  c == ' ' || c == '\t' || c == '\n' || c == '\r' || c == '\x0b' || c == '\x0c'

/-- `pat` occurs at the head of `txt` (case-sensitive). -/
def headMatches : List Char → List Char → Bool
  | [], _ => true
  | _ :: _, [] => false
  | p :: ps, c :: cs => p == c && headMatches ps cs

/-- Lowercase `pat` occurs at the head of `txt` once `txt` is lowercased. -/
def headMatchesLower : List Char → List Char → Bool
  | [], _ => true
  | _ :: _, [] => false
  | p :: ps, c :: cs => p == c.toLower && headMatchesLower ps cs

/-- `String.prototype.includes` on character lists. -/
def containsSeq (pat : List Char) : List Char → Bool
  | [] => headMatches pat []
  | c :: cs => headMatches pat (c :: cs) || containsSeq pat cs

/-- The maximal leading digit run (`\d+` greedy) and the remaining text. -/
def digitsRun : List Char → List Char × List Char
  | [] => ([], [])
  | c :: cs =>
    if c.isDigit then
      let r := digitsRun cs
      (c :: r.1, r.2)
    else ([], c :: cs)

/-- `parseInt(digits, 10)` on a digit run. -/
def natOfDigits (ds : List Char) : Nat :=
  ds.foldl (fun n c => n * 10 + (c.toNat - 48)) 0

/-- Skip a maximal whitespace run (`\s*` greedy). -/
def skipWs : List Char → List Char
  | [] => []
  | c :: cs => if isSpaceJS c then skipWs cs else c :: cs

/-! ### `parseDuration` (date-utils part_011:248-266)

`parseDuration` independently runs `/(\d+)\s*(hour|hr|hours?)/i` and
`/(\d+)\s*(minute|min|minutes?)/i` against the text.  A unit alternation
matches at a position exactly when `"hour"`/`"hr"` (resp. `"min"`) is a
(case-insensitive) prefix of the remaining text, so each regex is embedded
as a leftmost scan for a digit run followed by optional whitespace and the
unit prefix. -/

/-- The `(hour|hr|hours?)` alternation matches here. -/
def hourUnitHere (cs : List Char) : Bool :=
  headMatchesLower "hour".data cs || headMatchesLower "hr".data cs

/-- The `(minute|min|minutes?)` alternation matches here (every alternative
begins with `min`, and `min` alone already matches). -/
def minUnitHere (cs : List Char) : Bool :=
  headMatchesLower "min".data cs

/-- Leftmost match of `/(\d+)\s*(unit)/i`: returns the parsed digit group. -/
def scanNumUnit (unit : List Char → Bool) : List Char → Option Nat
  | [] => none
  | c :: cs =>
    if c.isDigit then
      let r := digitsRun (c :: cs)
      if unit (skipWs r.2) then some (natOfDigits r.1)
      else scanNumUnit unit cs
    else scanNumUnit unit cs

/-- The hour-token regex match of `parseDuration`. -/
def hourTokenMatch (text : String) : Option Nat :=
  scanNumUnit hourUnitHere text.data

/-- The minute-token regex match of `parseDuration`. -/
def minuteTokenMatch (text : String) : Option Nat :=
  scanNumUnit minUnitHere text.data

/-- Embeds `parseDuration` (part_011:248-266): sum the matched tokens and
return `null` unless the total is positive. -/
def parseDuration (text : String) : Option Nat :=
  let totalMinutes :=
    (match hourTokenMatch text with
     | some h => h * 60
     | none => 0) +
    (match minuteTokenMatch text with
     | some m => m
     | none => 0)
  if totalMinutes > 0 then some totalMinutes else none

/-- C9 (counterexample): on `"0 hours"` the hour token matches (with number
0), yet `parseDuration` returns `null` — refuting "returns null only if
neither token matched". -/
theorem C9_counterexample :
    hourTokenMatch "0 hours" = some 0 ∧ parseDuration "0 hours" = none := by
  constructor <;> decide

/-- C9 (amended): `parseDuration` independently matches an hour token and a
minute token anywhere in the text and sums 60 times the hour number plus the
minute number (either token may be absent, counting as 0); it returns that
sum when it is positive and `null` exactly when the sum is 0 — in
particular when neither token matched, but also when every matched number
is 0. -/
theorem C9_parseDuration_sum (text : String) :
    parseDuration text =
      (if 0 < (hourTokenMatch text).getD 0 * 60 + (minuteTokenMatch text).getD 0 then
        some ((hourTokenMatch text).getD 0 * 60 + (minuteTokenMatch text).getD 0)
      else none) ∧
    (parseDuration text = none ↔
      (hourTokenMatch text).getD 0 * 60 + (minuteTokenMatch text).getD 0 = 0) := by
  have h1 : parseDuration text =
      (if 0 < (hourTokenMatch text).getD 0 * 60 + (minuteTokenMatch text).getD 0 then
        some ((hourTokenMatch text).getD 0 * 60 + (minuteTokenMatch text).getD 0)
      else none) := by
    unfold parseDuration
    rcases hourTokenMatch text with _ | h <;> rcases minuteTokenMatch text with _ | m <;>
      simp [Option.getD]
  refine ⟨h1, ?_⟩
  rw [h1]
  split
  case isTrue hpos => simp; omega
  case isFalse hnpos => simp; omega

/-! ### `parseDateExpression` (date-utils part_011:271-307)

The JavaScript `Date` arithmetic is embedded over the proleptic Gregorian
calendar: `daysFromCivil`/`civilFromDays` convert between a civil date and a
day number (days since 1970-01-01), following the standard algorithms.
`new Date(year, month, day)` normalises out-of-range month/day by rollover,
which the conversion handles because the formula is linear in `day` and the
month is reduced modulo 12 into the year. -/

/-- Embeds `Date.prototype.getDay`: the local weekday index (0 = Sunday).
1970-01-01 was a Thursday (index 4). -/
def getDay (off t : Int) : Int := ((t + off).fdiv dayMs + 4) % 7

/-- Embeds the fields of `CalendarEvent` that the analysis reads (absent
`attendees` is the empty list, matching `attendees && attendees.length > 0`). -/
structure CalendarEvent where
  summary : String
  description : Option String
  attendees : List String
  startMs : Int
  endMs : Int
deriving DecidableEq, Repr

/-- The keyword list of `isMeetingEvent` (calendar-client.ts:454-457). -/
def meetingKeywords : List String :=
  ["meeting", "standup", "sync", "review", "call", "discussion",
   "demo", "workshop", "training", "interview", "1:1", "one-on-one"]

/-- Embeds `isMeetingEvent` (calendar-client.ts:447-461). -/
def isMeetingEvent (e : CalendarEvent) : Bool :=
  if e.attendees.length > 0 then true
  else
    let text :=
      (e.summary ++ " " ++
        (match e.description with | some d => d | none => "")).data.map Char.toLower
    meetingKeywords.any fun k => containsSeq k.data text

/-- `toLocaleDateString('en-US', { weekday: 'long' })` day names. -/
def dayNames : List String :=
  ["Sunday", "Monday", "Tuesday", "Wednesday", "Thursday", "Friday", "Saturday"]

def weekdayLongName (off t : Int) : String :=
  dayNames.getD (getDay off t).toNat "Sunday"

/-- `dayStats[dayKey].minutes += duration; dayStats[dayKey].count++`, with
record keys ordered by first occurrence. -/
def bumpDay (stats : List (String × Int × Nat)) (key : String) (dur : Int) :
    List (String × Int × Nat) :=
  match stats with
  | [] => [(key, dur, 1)]
  | (k, m, c) :: rest =>
    if k == key then (k, m + dur, c + 1) :: rest
    else (k, m, c) :: bumpDay rest key dur

/-- The accumulation loop of `analyzeTimeUsage`: total, meeting and focus
minutes plus the per-weekday statistics. -/
def analyzeLoop (off : Int) (events : List CalendarEvent) :
    Int × Int × Int × List (String × Int × Nat) :=
  events.foldl
    (fun acc e =>
      let dur := getDurationMinutes e.startMs e.endMs
      (acc.1 + dur,
       (if isMeetingEvent e then acc.2.1 + dur else acc.2.1),
       (if isMeetingEvent e then acc.2.2.1 else acc.2.2.1 + dur),
       bumpDay acc.2.2.2 (weekdayLongName off e.startMs) dur))
    (0, 0, 0, [])

/-- `busiestDay` selection: strictly larger minutes win, ties keep the
earlier weekday. -/
def busiestLoop (stats : List (String × Int × Nat)) : String × Int :=
  stats.foldl
    (fun acc entry => if entry.2.1 > acc.2 then (entry.1, entry.2.1) else acc)
    ("", 0)

/-- Embeds the `TimeUsageSummary` result record of `analyzeTimeUsage`. -/
structure TimeUsageSummary where
  totalHours : ℚ
  meetingHours : ℚ
  focusHours : ℚ
  freeHours : ℚ
  meetingCount : Nat
  busiestDay : String
  dayBreakdown : List (String × ℚ × Nat)
deriving DecidableEq, Repr

/-- Embeds the core of `analyzeTimeUsage` (calendar-client.ts:372-434) on an
already-fetched event list. -/
def analyzeTimeUsageCore (off : Int) (events : List CalendarEvent) :
    TimeUsageSummary :=
  let a := analyzeLoop off events
  let totalHours : ℚ := (a.1 : ℚ) / 60
  let meetingHours : ℚ := (a.2.1 : ℚ) / 60
  let focusHours : ℚ := (a.2.2.1 : ℚ) / 60
  let freeHours : ℚ := totalHours - meetingHours - focusHours
  let bd := busiestLoop a.2.2.2
  { totalHours := totalHours
    meetingHours := meetingHours
    focusHours := focusHours
    freeHours := max 0 freeHours
    meetingCount := (events.filter fun e => isMeetingEvent e).length
    busiestDay := if bd.1 == "" then "None" else bd.1
    dayBreakdown := a.2.2.2.map fun s => (s.1, (s.2.1 : ℚ) / 60, s.2.2) }

theorem analyzeLoop_sum (off : Int) :
    ∀ (events : List CalendarEvent) (t m f : Int)
      (st : List (String × Int × Nat)), m + f = t →
      (events.foldl
        (fun acc e =>
          let dur := getDurationMinutes e.startMs e.endMs
          (acc.1 + dur,
           (if isMeetingEvent e then acc.2.1 + dur else acc.2.1),
           (if isMeetingEvent e then acc.2.2.1 else acc.2.2.1 + dur),
           bumpDay acc.2.2.2 (weekdayLongName off e.startMs) dur))
        (t, m, f, st)).2.1 +
      (events.foldl
        (fun acc e =>
          let dur := getDurationMinutes e.startMs e.endMs
          (acc.1 + dur,
           (if isMeetingEvent e then acc.2.1 + dur else acc.2.1),
           (if isMeetingEvent e then acc.2.2.1 else acc.2.2.1 + dur),
           bumpDay acc.2.2.2 (weekdayLongName off e.startMs) dur))
        (t, m, f, st)).2.2.1 =
      (events.foldl
        (fun acc e =>
          let dur := getDurationMinutes e.startMs e.endMs
          (acc.1 + dur,
           (if isMeetingEvent e then acc.2.1 + dur else acc.2.1),
           (if isMeetingEvent e then acc.2.2.1 else acc.2.2.1 + dur),
           bumpDay acc.2.2.2 (weekdayLongName off e.startMs) dur))
        (t, m, f, st)).1 := by
  intro events
  induction events with
  | nil => intro t m f st h; exact h
  | cons e rest ih =>
    intro t m f st h
    simp only [List.foldl_cons]
    rcases hme : isMeetingEvent e with _ | _
    · simp only [hme, Bool.false_eq_true, if_false]
      exact ih _ _ _ _ (by omega)
    · simp only [hme, if_true]
      exact ih _ _ _ _ (by omega)

/-- Under exact rational arithmetic, meeting hours plus focus hours equal
total hours and the clamped difference `freeHours` is 0.  (The running
program computes these hours in IEEE doubles, where a nonzero rounding
residue can remain; see the binary64 model below.) -/
theorem analyzeTimeUsageCore_exact_freeHours (off : Int) (events : List CalendarEvent) :
    (analyzeTimeUsageCore off events).meetingHours +
      (analyzeTimeUsageCore off events).focusHours =
      (analyzeTimeUsageCore off events).totalHours ∧
    (analyzeTimeUsageCore off events).freeHours = 0 := by
  have hsum := analyzeLoop_sum off events 0 0 0 [] (by ring)
  have hme : ((analyzeLoop off events).2.1 : ℚ) / 60 +
      ((analyzeLoop off events).2.2.1 : ℚ) / 60 =
      ((analyzeLoop off events).1 : ℚ) / 60 := by
    have hc : (((analyzeLoop off events).2.1 +
        (analyzeLoop off events).2.2.1 : Int) : ℚ) =
        (((analyzeLoop off events).1 : Int) : ℚ) := by
      exact_mod_cast congrArg (fun z : Int => (z : ℚ)) hsum
    push_cast at hc
    linarith
  constructor
  · simpa [analyzeTimeUsageCore] using hme
  · simp only [analyzeTimeUsageCore]
    have hz : ((analyzeLoop off events).1 : ℚ) / 60 -
        ((analyzeLoop off events).2.1 : ℚ) / 60 -
        ((analyzeLoop off events).2.2.1 : ℚ) / 60 = 0 := by linarith
    rw [hz]
    simp

/-- The concrete event list of spec scenario 6: one 60-minute event with an
attendee and one 120-minute event titled "focus block", on one day. -/
def c5events : List CalendarEvent :=
  [⟨"Team event", none, ["a@example.com"], 0, 3600000⟩,
   ⟨"focus block", none, [], 7200000, 14400000⟩]

theorem c5_analyzeLoop_eval :
    analyzeLoop 0 c5events = (180, 60, 120, [("Thursday", 180, 2)]) := by
  decide

/-- C5 (counterexample): for one 60-minute event with an attendee plus one
120-minute "focus block", the analysis does not return `freeHours = 21`:
`totalHours` is the sum of event hours (3), not the 24-hour window, so
`freeHours = max(0, 3 - 1 - 2) = 0`. -/
theorem C5_counterexample :
    ¬ ((analyzeTimeUsageCore 0 c5events).meetingHours = 1 ∧
       (analyzeTimeUsageCore 0 c5events).focusHours = 2 ∧
       (analyzeTimeUsageCore 0 c5events).meetingCount = 1 ∧
       (analyzeTimeUsageCore 0 c5events).freeHours = 21) := by
  intro hcl
  have hfree : (analyzeTimeUsageCore 0 c5events).freeHours = 21 := hcl.2.2.2
  rw [show (analyzeTimeUsageCore 0 c5events).freeHours =
      max 0 (((180 : Int) : ℚ) / 60 - ((60 : Int) : ℚ) / 60 -
        ((120 : Int) : ℚ) / 60) by
    simp only [analyzeTimeUsageCore, c5_analyzeLoop_eval]] at hfree
  norm_num at hfree

/-- C5 (amended): on that event list the analysis returns
`meetingHours = 1`, `focusHours = 2`, `meetingCount = 1` — and
`freeHours = max(0, 3 - 1 - 2) = 0`, since `totalHours` sums the event
durations rather than the 24-hour window. -/
theorem C5_analyze_two_events :
    (analyzeTimeUsageCore 0 c5events).meetingHours = 1 ∧
    (analyzeTimeUsageCore 0 c5events).focusHours = 2 ∧
    (analyzeTimeUsageCore 0 c5events).meetingCount = 1 ∧
    (analyzeTimeUsageCore 0 c5events).freeHours = 0 := by
  have hcount : (c5events.filter fun e => isMeetingEvent e).length = 1 := by
    decide
  refine ⟨?_, ?_, ?_, ?_⟩ <;>
    simp only [analyzeTimeUsageCore, c5_analyzeLoop_eval, hcount] <;>
    norm_num

/-! ### IEEE-double model of the hour arithmetic

`analyzeTimeUsage` computes `totalMinutes / 60`, `meetingMinutes / 60`,
`focusMinutes / 60` and `totalHours - meetingHours - focusHours` in
JavaScript numbers, i.e. IEEE-754 binary64 with round-to-nearest-even.
Every double is a dyadic rational; `Dy` represents the value `m * 2 ^ e`,
`flRat a b` is the correctly rounded double quotient `a / b`, and `subD` is
double subtraction.  (Overflow and subnormals are outside the model; minute
counts reachable here keep all values in the normal range, and the integer
minute accumulation itself is exact in doubles below `2^53`.) -/

/-- A dyadic rational `m * 2 ^ e` (the exact value of a binary64 number). -/
structure Dy where
  m : Int
  e : Int
deriving DecidableEq, Repr

/-- The exact rational value of a dyadic. -/
def dyVal (d : Dy) : ℚ := (d.m : ℚ) * (2 : ℚ) ^ d.e

/-- Normalise a positive fraction `a / b` to `(a₂ / b₂) * 2 ^ e` with
`1 ≤ a₂ / b₂ < 2`, by repeated doubling (fuel covers the binary64 range). -/
def flScale : Nat → Int → Int → Int → Int × Int × Int
  | 0, a, b, e => (a, b, e)
  | fuel + 1, a, b, e =>
    if a < b then flScale fuel (2 * a) b (e - 1)
    else if 2 * b ≤ a then flScale fuel a (2 * b) (e + 1)
    else (a, b, e)

/-- The binary64 value of `a / b` (`b > 0`), rounded to nearest, ties to
even: the 53-bit mantissa is `round((a₂ / b₂) * 2 ^ 52)`. -/
def flRat (a b : Int) : Dy :=
  if a = 0 then ⟨0, 0⟩
  else
    let s : Int := if a < 0 then -1 else 1
    let n := flScale 1300 (s * a) b 0
    let num := n.1 * 2 ^ 52
    let q := num / n.2.1
    let r := num % n.2.1
    let m :=
      if 2 * r < n.2.1 then q
      else if 2 * r > n.2.1 then q + 1
      else if q % 2 = 0 then q else q + 1
    ⟨s * m, n.2.2 - 52⟩

/-- Exact (unrounded) difference of two dyadics. -/
def dyDiff (x y : Dy) : Dy :=
  let e := min x.e y.e
  ⟨x.m * 2 ^ (x.e - e).toNat - y.m * 2 ^ (y.e - e).toNat, e⟩

/-- Round a dyadic to binary64. -/
def flDy (d : Dy) : Dy :=
  if 0 ≤ d.e then flRat (d.m * 2 ^ d.e.toNat) 1 else flRat d.m (2 ^ (-d.e).toNat)

/-- JavaScript double subtraction: exact difference, then rounding. -/
def subD (x y : Dy) : Dy := flDy (dyDiff x y)

/-- `Math.max(0, x)` on doubles (a dyadic is negative iff its mantissa is). -/
def maxZeroD (x : Dy) : Dy := if x.m < 0 then ⟨0, 0⟩ else x

/-- The `freeHours` the running program returns
(calendar-client.ts:413-416,430): the minute totals of `analyzeLoop`
converted to hours and subtracted in binary64, clamped at 0. -/
def freeHoursFloat (off : Int) (events : List CalendarEvent) : Dy :=
  let a := analyzeLoop off events
  maxZeroD (subD (subD (flRat a.1 60) (flRat a.2.1 60)) (flRat a.2.2.1 60))

/-- One 1-minute event with an attendee and one 2-minute keyword-free
event: minute totals `(3, 1, 2)`. -/
def c6events : List CalendarEvent :=
  [⟨"Quick chat", none, ["a@example.com"], 0, 60000⟩,
   ⟨"jot notes", none, [], 120000, 240000⟩]

/-- C6 (counterexample): for a 1-minute meeting plus a 2-minute focus event
the program returns `freeHours = max(0, 3/60 - 1/60 - 2/60) = 2 ^ (-57)`
(`≈ 6.94e-18`), not 0: the three divisions by 60 round inexactly and the
residue survives the clamp. -/
theorem C6_counterexample :
    freeHoursFloat 0 c6events = ⟨2 ^ 52, -109⟩ ∧
    dyVal (freeHoursFloat 0 c6events) ≠ 0 := by
  have h : freeHoursFloat 0 c6events = ⟨2 ^ 52, -109⟩ := by decide
  refine ⟨h, ?_⟩
  rw [h]
  simp only [dyVal]
  exact mul_ne_zero (by norm_num) (zpow_ne_zero _ (by norm_num))

theorem dyVal_maxZeroD_nonneg (x : Dy) : 0 ≤ dyVal (maxZeroD x) := by
  unfold maxZeroD
  split
  case isTrue => simp [dyVal]
  case isFalse h =>
    unfold dyVal
    have hm : (0 : ℚ) ≤ (x.m : ℚ) := by exact_mod_cast not_lt.mp h
    exact mul_nonneg hm (le_of_lt (zpow_pos (by norm_num) _))

/-- C6 (amended): the analysis classifies each event as exactly one of
meeting or focus, so the accumulated meeting minutes plus focus minutes
always equal the accumulated total minutes, and under exact arithmetic
`freeHours` would always be 0; the program, however, computes the hours in
IEEE doubles, so the returned `freeHours` is only the clamped rounding
residue: it is never negative, it is 0 when the divisions by 60 are exact
(e.g. whole-hour minute totals such as `(180, 60, 120)`), but it can be
positive — `2 ^ (-57)` hours for minute totals `(3, 1, 2)`. -/
theorem C6_freeHours_rounding_residue :
    (∀ (off : Int) (events : List CalendarEvent),
      (analyzeLoop off events).2.1 + (analyzeLoop off events).2.2.1 =
        (analyzeLoop off events).1) ∧
    (∀ (off : Int) (events : List CalendarEvent),
      (analyzeTimeUsageCore off events).freeHours = 0) ∧
    (∀ (off : Int) (events : List CalendarEvent),
      0 ≤ dyVal (freeHoursFloat off events)) ∧
    freeHoursFloat 0 c5events = ⟨0, 0⟩ ∧
    freeHoursFloat 0 c6events = ⟨2 ^ 52, -109⟩ := by
  refine ⟨?_, ?_, ?_, by decide, by decide⟩
  · intro off events
    exact analyzeLoop_sum off events 0 0 0 [] (by ring)
  · intro off events
    exact (analyzeTimeUsageCore_exact_freeHours off events).2
  · intro off events
    exact dyVal_maxZeroD_nonneg _

/-! ### `detectIntent` (natural-language.ts:186-198)

The intent patterns use a small regex subset: literals, `\s`, the
quantifiers `+ * ?` over single character classes, non-capturing groups,
alternation, `\b` and `$`, all under the `i` flag.  `RE` embeds exactly this
subset; `mmatch` returns every state (last consumed character and remaining
text) reachable by matching at the current position, and `retest` embeds
`RegExp.prototype.test` by trying every start position. -/

inductive RE where
  | eps : RE
  | ch : (Char → Bool) → RE
  | many : (Char → Bool) → RE
  | seq : RE → RE → RE
  | alt : RE → RE → RE
  | opt : RE → RE
  | wb : RE
  | eos : RE

/-- States reachable by consuming zero or more class characters (`c*`). -/
def runStates (f : Char → Bool) : Option Char → List Char → List (Option Char × List Char)
  | p, [] => [(p, [])]
  | p, c :: r => (p, c :: r) :: (if f c then runStates f (some c) r else [])

/-- JavaScript `\w` (ASCII letters, digits, underscore). -/
def isWordChar (c : Char) : Bool := c.isAlphanum || c == '_'

/-- JavaScript `\b`: a word character on exactly one side of the position. -/
def atWordBoundary (p : Option Char) (s : List Char) : Bool :=
  (match p with | some c => isWordChar c | none => false) !=
  (match s with | c :: _ => isWordChar c | [] => false)

/-- All states reachable by matching `r` at the current position. -/
def mmatch : RE → Option Char → List Char → List (Option Char × List Char)
  | .eps, p, s => [(p, s)]
  | .ch _, _, [] => []
  | .ch f, _, c :: r => if f c then [(some c, r)] else []
  | .many f, p, s => runStates f p s
  | .seq a b, p, s => (mmatch a p s).flatMap fun st => mmatch b st.1 st.2
  | .alt a b, p, s => mmatch a p s ++ mmatch b p s
  | .opt a, p, s => (p, s) :: mmatch a p s
  | .wb, p, s => if atWordBoundary p s then [(p, s)] else []
  | .eos, p, s => if s.isEmpty then [(p, s)] else []

/-- `test` from a fixed start position. -/
def testFrom (r : RE) (p : Option Char) (s : List Char) : Bool :=
  !(mmatch r p s).isEmpty

/-- Try every start position (leftmost scan of `RegExp.prototype.test`). -/
def testAux (r : RE) : Option Char → List Char → Bool
  | p, [] => testFrom r p []
  | p, c :: rest => testFrom r p (c :: rest) || testAux r (some c) rest

/-- Embeds `pattern.test(query)` for the case-insensitive patterns below. -/
def retest (r : RE) (q : String) : Bool := testAux r none q.data

/-- A case-insensitive literal character. -/
def chi (c : Char) : RE := .ch fun x => x.toLower == c

/-- A case-insensitive literal string. -/
def lit (s : String) : RE := (s.data.map chi).foldr RE.seq RE.eps

/-- `\s` -/
def wsp : RE := .ch isSpaceJS

/-- `\s+` -/
def wsPlus : RE := .seq wsp (.many isSpaceJS)

/-- `\s*` -/
def wsStar : RE := .many isSpaceJS

/-- Sequence of regex parts. -/
def cat (l : List RE) : RE := l.foldr RE.seq RE.eps

def alt3 (a b c : RE) : RE := .alt a (.alt b c)

def alt4 (a b c d : RE) : RE := .alt a (.alt b (.alt c d))

/-- Embeds the `GCalendarCommand` union of `src/client/types.ts`. -/
inductive GCalendarCommand where
  | availability | create | list | get | update | delete | block | analyze | auth
deriving DecidableEq, Repr

/-- Embeds `INTENT_PATTERNS` (natural-language.ts:12-89), category and
pattern order preserved. -/
def INTENT_PATTERNS : List (GCalendarCommand × List RE) :=
  [(.availability,
    [cat [lit "find", wsPlus, alt3 (lit "open") (lit "free") (lit "available"),
      wsStar, .opt (.alt (lit "slot") (lit "time"))],
     cat [lit "when", wsPlus,
      alt3 (lit "is") (lit "are") (cat [lit "can", wsPlus, lit "i"]), wsPlus,
      alt3 (lit "i") (lit "we") (lit "everyone"), wsPlus,
      .alt (lit "free") (lit "available")],
     cat [lit "show", wsPlus, .opt (cat [lit "me", wsPlus]),
      alt3 (lit "available") (lit "free") (lit "open"), wsPlus, lit "time"],
     cat [lit "what", .alt (lit "'s") (lit " is"), wsPlus,
      .opt (cat [lit "my", wsPlus]), .alt (lit "free") (lit "available")],
     cat [lit "check", wsPlus, .opt (cat [lit "my", wsPlus]), lit "availability"],
     cat [lit "find", wsPlus, .opt (cat [lit "me", wsPlus]), lit "time"],
     cat [lit "free", wsPlus, .alt (lit "slot") (lit "time")]]),
   (.create,
    [cat [lit "schedule", wsp],
     cat [lit "create", wsPlus, .opt (cat [lit "a", wsPlus]),
      .opt (cat [lit "new", wsPlus]),
      alt3 (lit "meeting") (lit "event") (lit "appointment")],
     cat [lit "book", wsp],
     cat [lit "add", wsPlus, .opt (cat [lit "a", wsPlus]),
      alt3 (lit "meeting") (lit "event") (lit "appointment")],
     cat [lit "set", wsPlus, lit "up", wsp],
     cat [lit "arrange", wsp],
     cat [lit "plan", wsp]]),
   (.list,
    [cat [lit "what", alt3 (lit "'s") (lit " is") (lit " are"), wsPlus,
      .opt (.alt (lit "on") (lit "my")), wsStar, .opt (cat [lit "my", wsPlus]),
      lit "calendar"],
     cat [lit "show", wsPlus, .opt (cat [lit "me", wsPlus]),
      .opt (cat [lit "my", wsPlus]),
      .opt (alt3 (lit "today") (cat [lit "this", wsPlus, lit "week"])
        (cat [lit "this", wsPlus, lit "month"])),
      wsStar, lit "schedule"],
     cat [lit "list", wsPlus, .opt (cat [lit "my", wsPlus]),
      .opt (.alt (lit "today") (cat [lit "this", wsPlus, lit "week"])),
      wsStar, .opt (alt3 (lit "events") (lit "meetings") (lit "appointments"))],
     cat [lit "what", wsPlus, lit "do", wsPlus, lit "i", wsPlus, lit "have"],
     cat [lit "my", wsPlus, .opt (cat [lit "upcoming", wsPlus]), lit "events"]]),
   (.get,
    [cat [lit "find", wsPlus, .opt (cat [lit "my", wsPlus]),
      alt3 (lit "meeting") (lit "event") (lit "appointment"), wsPlus,
      alt3 (lit "with") (lit "called") (lit "named")],
     cat [lit "get", wsPlus, .alt (lit "details") (lit "info"),
      .opt (cat [wsPlus, lit "for"])],
     cat [lit "show", wsPlus, .opt (cat [lit "me", wsPlus]),
      .alt (lit "details") (lit "info"), .opt (cat [wsPlus, lit "for"])],
     cat [lit "look", wsPlus, lit "up"],
     cat [lit "search", wsPlus, .opt (cat [lit "for", wsPlus]),
      .opt (cat [lit "my", wsPlus]), .alt (lit "meeting") (lit "event")]]),
   (.update,
    [cat [lit "update", wsp],
     cat [lit "change", wsp],
     cat [lit "modify", wsp],
     cat [lit "move", wsp],
     cat [lit "reschedule", wsp],
     cat [lit "edit", wsp],
     cat [lit "shift", wsp],
     cat [lit "reschedule", .eos]]),
   (.delete,
    [cat [lit "delete", wsp],
     cat [lit "remove", wsp],
     cat [lit "cancel", wsp],
     lit "unschedule",
     cat [lit "drop", wsp],
     cat [lit "delete", .eos],
     cat [lit "remove", .eos],
     cat [lit "cancel", .eos]]),
   (.block,
    [cat [lit "block", wsPlus, .alt (lit "time") (lit "out")],
     cat [lit "mark", wsPlus, .opt (cat [lit "me", wsPlus]),
      .opt (cat [lit "as", wsPlus]), .alt (lit "busy") (lit "unavailable")],
     cat [lit "focus", wsPlus, .alt (lit "time") (lit "block")],
     cat [lit "out", wsPlus, lit "of", wsPlus, lit "office"],
     cat [.wb, lit "ooo", .wb],
     cat [lit "do", wsPlus, lit "not", wsPlus, lit "disturb"],
     cat [lit "reserve", wsPlus, lit "time"]]),
   (.analyze,
    [lit "analyze",
     cat [lit "how", wsPlus, .alt (lit "much") (lit "many")],
     cat [lit "time", wsPlus, alt3 (lit "usage") (lit "analysis") (lit "spent")],
     cat [lit "meeting", wsPlus,
      alt3 (lit "load") (lit "count") (lit "distribution")],
     cat [lit "show", wsPlus, .opt (cat [lit "my", wsPlus]),
      .alt (lit "time") (lit "meeting"), wsPlus,
      alt4 (lit "usage") (lit "analysis") (lit "stats") (lit "summary")],
     lit "busiest",
     cat [lit "free", wsPlus, lit "time", wsPlus, .alt (lit "this") (lit "next")]]),
   (.auth,
    [lit "authenticate",
     lit "login",
     lit "authorize",
     lit "connect"])]

/-- The category loop of `detectIntent`: first matching pattern wins, in
category order; the default is `list`. -/
def detectLoop (query : String) : List (GCalendarCommand × List RE) → GCalendarCommand
  | [] => .list
  | (intent, patterns) :: rest =>
    if patterns.any fun p => retest p query then intent
    else detectLoop query rest

/-- Embeds `detectIntent` (natural-language.ts:186-198). -/
def detectIntent (query : String) : GCalendarCommand :=
  detectLoop query INTENT_PATTERNS

/-- C4: `detectIntent("block 2 hours for deep work")` does not return
`"block"` as the claim (and the repository's own unit test,
tests/unit/natural-language.test.ts:116) states: no block pattern matches —
`/block\s+(?:time|out)/` requires "block time" or "block out" — and no other
category matches either, so the code falls through to the default `"list"`.
`parseDuration("2 hours") = 120` does hold. -/
theorem C4_block_query_falls_to_list :
    detectIntent "block 2 hours for deep work" = GCalendarCommand.list ∧
    parseDuration "2 hours" = some 120 := by
  constructor
  · set_option maxHeartbeats 2000000 in decide
  · decide

theorem detectLoop_default (q : String) :
    ∀ l : List (GCalendarCommand × List RE),
      (∀ pr ∈ l, ∀ p ∈ pr.2, retest p q = false) →
      detectLoop q l = GCalendarCommand.list := by
  intro l
  induction l with
  | nil => intro _; rfl
  | cons pr rest ih =>
    intro h
    rcases pr with ⟨intent, patterns⟩
    have hnone : (patterns.any fun p => retest p q) = false := by
      rw [List.any_eq_false]
      intro p hp
      simp [h ⟨intent, patterns⟩ (List.mem_cons_self _ _) p hp]
    simp only [detectLoop, hnone, Bool.false_eq_true, if_false]
    exact ih fun pr2 h2 => h pr2 (List.mem_cons_of_mem _ h2)

/-- C10: `detectIntent` is total by construction (it is a pure function on
strings that never fails), and whenever no pattern of any intent category
matches the query it returns the default intent `list`. -/
theorem C10_detectIntent_default (q : String)
    (h : ∀ pr ∈ INTENT_PATTERNS, ∀ p ∈ pr.2, retest p q = false) :
    detectIntent q = GCalendarCommand.list :=
  detectLoop_default q INTENT_PATTERNS h

/-- Witness for C10: the empty query matches no pattern. -/
theorem C10_detectIntent_default_witness :
    (∀ pr ∈ INTENT_PATTERNS, ∀ p ∈ pr.2, retest p "" = false) ∧
    detectIntent "" = GCalendarCommand.list :=
  ⟨by set_option maxHeartbeats 2000000 in decide,
   C10_detectIntent_default "" (by set_option maxHeartbeats 2000000 in decide)⟩

end GCal
